import Mathlib

/-!
Verification of the `pubsub` package: a publish/subscribe broker whose state
is a trie (`router` in the Go source) keyed by topic segment.  Each node holds
a set of subscriber handles (Go: `map[chan<- T]struct{}`) and a map from the
next topic segment to a child node (Go: `map[string]router[T]`).

Shallow embedding choices:
* A subscriber handle (a Go channel used only for identity and delivery) is a
  `Nat`.
* A Go set/map of handles becomes a `List Nat`; the map never holds a key
  twice, which appears here as the `wfB` invariant (subscriber lists have no
  duplicates), preserved by every operation.
* The `map[string]router[T]` of children becomes an association list
  `List (String × Router)`: `findChild` is map lookup, `updateChild` is map
  store (replace-or-append).
* Go channel readiness (`select { case ch <- v: default: }`) is an oracle
  `ready : Nat → Bool`; a send to a ready handle is a delivery, otherwise the
  value is dropped, exactly like the non-blocking select in the source.
* The broker actor loop (`config.Process`) serialises commands; it is embedded
  as the `step`/`run` functions mapping one command to the next router state
  plus the externally visible events (deliveries, closes).
-/

namespace PubSub

/-- The Go `router[T]` struct: a subscriber set and a child map. -/
inductive Router : Type where
  | node (subs : List Nat) (children : List (String × Router))

/-- Subscriber set of this node (Go field `subscribers`). -/
def Router.subs : Router → List Nat
  | .node s _ => s

/-- Child map of this node (Go field `topics`). -/
def Router.children : Router → List (String × Router)
  | .node _ c => c

/-- A fresh empty router, as built in `Process` and on child creation in
`router.subscribe`. -/
def Router.empty : Router := .node [] []

/-- Lookup in the child map `r.topics[t]` (Go map read `r2, ok := r.topics[k]`). -/
def findChild : List (String × Router) → String → Option Router
  | [], _ => none
  | (k, c) :: rest, t => if k = t then some c else findChild rest t

/-- Store into the child map `r.topics[k] = v` (Go map write): replace the
first binding of `k`, or append a new binding. -/
def updateChild : List (String × Router) → String → Router → List (String × Router)
  | [], t, v => [(t, v)]
  | (k, c) :: rest, t, v =>
    if k = t then (t, v) :: rest else (k, c) :: updateChild rest t v

/-- Go `router.subscribe`: walk the topic, creating missing child nodes; at
the terminal node, report a duplicate (`true`, the `DuplicateSubscription`
error) if the handle is already present, else insert it.  Returns the router
state after the call together with the error flag. -/
def Router.subscribe : Router → Nat → List String → Router × Bool
  | r, ch, [] =>
    if ch ∈ r.subs then (r, true)
    else (.node (ch :: r.subs) r.children, false)
  | r, ch, t :: rest =>
    let r2 := (findChild r.children t).getD Router.empty
    let p := r2.subscribe ch rest
    (.node r.subs (updateChild r.children t p.1), p.2)

/-- Go `router.unsubscribe`: walk the topic exactly; a missing segment is a
no-op; at the terminal node delete the handle from the subscriber set
(Go `delete(r.subscribers, ch)`). -/
def Router.unsubscribe : Router → Nat → List String → Router
  | r, ch, [] => .node (r.subs.filter (fun x => x ≠ ch)) r.children
  | r, ch, t :: rest =>
    match findChild r.children t with
    | none => r
    | some r2 => .node r.subs (updateChild r.children t (r2.unsubscribe ch rest))

/-- Go `router.publish`: at every node along the topic, attempt a non-blocking
send to each subscriber of that node (the select/default keeps exactly the
ready ones); then descend into the matching child if the topic has segments
left and the child exists.  Returns the handles that received the value, in
traversal order. -/
def Router.publish (ready : Nat → Bool) : Router → List String → List Nat
  | r, [] => r.subs.filter ready
  | r, t :: rest =>
    r.subs.filter ready ++
      match findChild r.children t with
      | none => []
      | some r2 => r2.publish ready rest

/-- The handles `router.publish` attempts to send to (every subscriber at
every node along the topic): `publish` with every handle ready. -/
def Router.offers (r : Router) (topic : List String) : List Nat :=
  r.publish (fun _ => true) topic

/-- The node reached by following `topic` from `r`, if every segment exists. -/
def Router.nodeAt : Router → List String → Option Router
  | r, [] => some r
  | r, t :: rest =>
    match findChild r.children t with
    | none => none
    | some r2 => r2.nodeAt rest

/-- The subscriber set registered at exactly `topic` (empty when no node). -/
def Router.subsAt (r : Router) (topic : List String) : List Nat :=
  match r.nodeAt topic with
  | none => []
  | some n => n.subs

/-- One step of Go `closeSubs` duty inside `router.close`: scan this node's
subscriber set, closing each handle not yet recorded in `closed` and
recording it.  Returns the updated `closed` set and the close notifications
issued, in order. -/
def closeSubs : List Nat → List Nat → List Nat × List Nat
  | [], closed => (closed, [])
  | ch :: rest, closed =>
    if ch ∈ closed then closeSubs rest closed
    else
      let p := closeSubs rest (ch :: closed)
      (p.1, ch :: p.2)

mutual

/-- Go `router.close`: close this node's subscribers (deduplicated through
`closed`), then recurse into every child.  Returns the final `closed` set and
the close notifications issued. -/
def Router.closeAll : Router → List Nat → List Nat × List Nat
  | .node subs children, closed =>
    let p := closeSubs subs closed
    let q := closeChildren children p.1
    (q.1, p.2 ++ q.2)

/-- The `for _, r2 := range r.topics` loop of Go `router.close`. -/
def closeChildren : List (String × Router) → List Nat → List Nat × List Nat
  | [], closed => (closed, [])
  | (_, c) :: rest, closed =>
    let p := c.closeAll closed
    let q := closeChildren rest p.1
    (q.1, p.2 ++ q.2)

end

mutual

/-- Every handle registered anywhere in the tree (with one occurrence per
node whose subscriber set holds it). -/
def Router.handles : Router → List Nat
  | .node subs children => subs ++ handlesChildren children

/-- Handles registered in a list of children. -/
def handlesChildren : List (String × Router) → List Nat
  | [] => []
  | (_, c) :: rest => c.handles ++ handlesChildren rest

end

mutual

/-- Well-formedness inherited from the Go representation: subscriber sets and
child maps are Go maps, so no node's subscriber list holds a handle twice and
no child map binds a segment twice. -/
def Router.wfB : Router → Bool
  | .node subs children =>
    subs.Nodup && (children.map Prod.fst).Nodup && wfChildren children

/-- `wfB` on every child. -/
def wfChildren : List (String × Router) → Bool
  | [] => true
  | (_, c) :: rest => c.wfB && wfChildren rest

end

/-- A command sent to the broker actor loop (Go `config.Process` select arms). -/
inductive Cmd (α : Type) : Type where
  | pub (v : α) (topic : List String)
  | sub (ch : Nat) (topic : List String)
  | unsub (ch : Nat) (topic : List String)

/-- An externally visible event of the broker. -/
inductive Event (α : Type) : Type where
  | delivered (ch : Nat) (v : α)
  | closed (ch : Nat)

/-- One iteration of the Go actor loop `config.Process` on one command:
publish delivers and leaves the router untouched (the Go `publish` performs
no map write), subscribe and unsubscribe update the router and deliver
nothing. -/
def step (ready : Nat → Bool) (r : Router) : Cmd α → Router × List (Event α)
  | .pub v topic => (r, (r.publish ready topic).map (fun ch => Event.delivered ch v))
  | .sub ch topic => ((r.subscribe ch topic).1, [])
  | .unsub ch topic => (r.unsubscribe ch topic, [])

/-- The actor loop over a list of commands (no shutdown yet). -/
def run (ready : Nat → Bool) (r : Router) : List (Cmd α) → Router × List (Event α)
  | [] => (r, [])
  | c :: rest =>
    let p := step ready r c
    let q := run ready p.1 rest
    (q.1, p.2 ++ q.2)

/-- The shutdown arm of `config.Process`: `rr.close(make(map[chan<- T]struct{}))`,
emitting one close event per close call. -/
def shutdownEvents (α : Type) (r : Router) : List (Event α) :=
  (r.closeAll []).2.map Event.closed

/-- Whether a command mutates the router (publish does not). -/
def Cmd.isMut : Cmd α → Bool
  | .pub _ _ => false
  | .sub _ _ => true
  | .unsub _ _ => true

/-- Concatenation of the subscriber sets at a list of topics (used to relate
a publish traversal to the per-node registrations). -/
def collectSubs (r : Router) : List (List String) → List Nat
  | [] => []
  | Q :: rest => r.subsAt Q ++ collectSubs r rest

/-- Sample router: handle 1 at `["a"]`, handle 2 at the root, handle 7 at
`["a","b"]`. -/
def sampleA : Router :=
  (((Router.empty.subscribe 1 ["a"]).1.subscribe 2 []).1.subscribe 7 ["a", "b"]).1

/-- Sample router: handle 7 registered at the three paths `["a"]`, `["b"]`
and the root. -/
def sampleB : Router :=
  (((Router.empty.subscribe 7 ["a"]).1.subscribe 7 ["b"]).1.subscribe 7 []).1

/-! ### Child-map (association list) lemmas -/

@[simp]
theorem subs_node (s : List Nat) (c : List (String × Router)) :
    (Router.node s c).subs = s := rfl

@[simp]
theorem children_node (s : List Nat) (c : List (String × Router)) :
    (Router.node s c).children = c := rfl

theorem findChild_updateChild_self (l : List (String × Router)) (t : String) (v : Router) :
    findChild (updateChild l t v) t = some v := by
  induction l with
  | nil => simp [updateChild, findChild]
  | cons kc rest ih =>
    obtain ⟨k, c⟩ := kc
    by_cases h : k = t <;> simp [updateChild, findChild, h, ih]

theorem findChild_updateChild_ne (l : List (String × Router)) (t u : String) (v : Router)
    (h : u ≠ t) : findChild (updateChild l t v) u = findChild l u := by
  have ht : ¬t = u := fun e => h e.symm
  induction l with
  | nil => simp [updateChild, findChild, ht]
  | cons kc rest ih =>
    obtain ⟨k, c⟩ := kc
    by_cases hk : k = t
    · subst hk
      simp [updateChild, findChild, ht]
    · simp [updateChild, findChild, hk, ih]

theorem updateChild_findChild_self (l : List (String × Router)) (t : String) (v : Router)
    (h : findChild l t = some v) : updateChild l t v = l := by
  induction l with
  | nil => simp [findChild] at h
  | cons kc rest ih =>
    obtain ⟨k, c⟩ := kc
    by_cases hk : k = t
    · subst hk
      simp [findChild] at h
      simp [updateChild, h]
    · simp [findChild, hk] at h
      simp [updateChild, hk, ih h]

/-! ### `nodeAt` and `subsAt` unfolding -/

@[simp]
theorem nodeAt_nil (r : Router) : r.nodeAt [] = some r := rfl

@[simp]
theorem subsAt_nil (r : Router) : r.subsAt [] = r.subs := rfl

theorem subsAt_cons_none (s : List Nat) (c : List (String × Router)) (t : String)
    (Q : List String) (h : findChild c t = none) :
    (Router.node s c).subsAt (t :: Q) = [] := by
  simp [Router.subsAt, Router.nodeAt, h]

theorem subsAt_cons_some (s : List Nat) (c : List (String × Router)) (t : String)
    (Q : List String) (r2 : Router) (h : findChild c t = some r2) :
    (Router.node s c).subsAt (t :: Q) = r2.subsAt Q := by
  simp [Router.subsAt, Router.nodeAt, h]

/-! ### Publish structure -/

/-- A publish with readiness oracle `ready` delivers to exactly the ready
handles among those it attempts (the non-blocking select drops the rest). -/
theorem publish_eq_filter_offers (ready : Nat → Bool) (r : Router) (P : List String) :
    r.publish ready P = (r.offers P).filter ready := by
  induction P generalizing r with
  | nil => simp [Router.publish, Router.offers]
  | cons t rest ih =>
    cases r with
    | node s c =>
      cases hf : findChild c t with
      | none => simp [Router.publish, Router.offers, hf]
      | some r2 => simp [Router.publish, Router.offers, hf, ih]

/-- The attempted deliveries of a publish are the subscriber sets of every
node sitting at a prefix of the published topic, in traversal order. -/
theorem offers_eq_collectSubs (r : Router) (P : List String) :
    r.offers P = collectSubs r P.inits := by
  induction P generalizing r with
  | nil => simp [Router.offers, Router.publish, collectSubs]
  | cons t rest ih =>
    cases r with
    | node s c =>
      cases hf : findChild c t with
      | none =>
        have hmap : ∀ (L : List (List String)),
            collectSubs (Router.node s c) (L.map (fun Q => t :: Q)) = [] := by
          intro L
          induction L with
          | nil => simp [collectSubs]
          | cons Q L ihL => simp [collectSubs, subsAt_cons_none _ _ _ _ hf, ihL]
        simp [Router.offers, Router.publish, hf, List.inits_cons, collectSubs,
          hmap rest.inits]
      | some r2 =>
        have hmap : ∀ (L : List (List String)),
            collectSubs (Router.node s c) (L.map (fun Q => t :: Q)) =
              collectSubs r2 L := by
          intro L
          induction L with
          | nil => simp [collectSubs]
          | cons Q L ihL => simp [collectSubs, subsAt_cons_some _ _ _ _ _ hf, ihL]
        have h2 : Router.publish (fun _ => true) r2 rest = collectSubs r2 rest.inits :=
          ih r2
        simp [Router.offers, Router.publish, hf, List.inits_cons, collectSubs,
          hmap rest.inits, h2]

theorem mem_collectSubs (r : Router) (L : List (List String)) (ch : Nat) :
    ch ∈ collectSubs r L ↔ ∃ Q ∈ L, ch ∈ r.subsAt Q := by
  induction L with
  | nil => simp [collectSubs]
  | cons Q L ih => simp [collectSubs, ih]

/-- **C1.** A publish at topic `P` attempts delivery to a handle exactly when
that handle is registered at some prefix of `P` (the root included);
registrations at non-prefixes of `P` — strict extensions included — are never
reached. -/
theorem publish_reaches_exactly_prefixes (r : Router) (P : List String) (ch : Nat) :
    ch ∈ r.offers P ↔ ∃ Q, Q <+: P ∧ ch ∈ r.subsAt Q := by
  rw [offers_eq_collectSubs, mem_collectSubs]
  constructor
  · rintro ⟨Q, hQ, hm⟩
    exact ⟨Q, (List.mem_inits Q P).mp hQ, hm⟩
  · rintro ⟨Q, hQ, hm⟩
    exact ⟨Q, (List.mem_inits Q P).mpr hQ, hm⟩

/-! ### Subscribe -/

theorem subscribe_empty_not_dup (ch : Nat) (P : List String) :
    (Router.empty.subscribe ch P).2 = false := by
  induction P with
  | nil => simp [Router.subscribe, Router.empty]
  | cons t rest ih => simpa [Router.subscribe, Router.empty, findChild] using ih

/-- **C2.** `subscribe` reports `DuplicateSubscription` exactly when the
handle is already registered at that very topic; a registration at any other
topic does not make it fail. -/
theorem subscribe_duplicate_iff (r : Router) (ch : Nat) (P : List String) :
    (r.subscribe ch P).2 = true ↔ ch ∈ r.subsAt P := by
  induction P generalizing r with
  | nil =>
    cases r with
    | node s c => by_cases h : ch ∈ s <;> simp [Router.subscribe, h]
  | cons t rest ih =>
    cases r with
    | node s c =>
      cases hf : findChild c t with
      | none =>
        simp [Router.subscribe, hf, subscribe_empty_not_dup,
          subsAt_cons_none _ _ _ _ hf]
      | some r2 =>
        simp [Router.subscribe, hf, ih, subsAt_cons_some _ _ _ _ _ hf]

/-- **C8.** When `subscribe` reports `DuplicateSubscription`, the router is
left exactly as it was: a duplicate means every node along the topic already
existed, so the walk created nothing. -/
theorem subscribe_error_leaves_state (r : Router) (ch : Nat) (P : List String) :
    (r.subscribe ch P).2 = true → (r.subscribe ch P).1 = r := by
  induction P generalizing r with
  | nil =>
    cases r with
    | node s c =>
      by_cases h : ch ∈ s <;> simp [Router.subscribe, h]
  | cons t rest ih =>
    cases r with
    | node s c =>
      intro h
      cases hf : findChild c t with
      | none => simp [Router.subscribe, hf, subscribe_empty_not_dup] at h
      | some r2 =>
        have h2 : (r2.subscribe ch rest).2 = true := by
          simpa [Router.subscribe, hf] using h
        simp [Router.subscribe, hf, ih r2 h2, updateChild_findChild_self _ _ _ hf]

/-! ### Best-effort delivery -/

/-- **C4.** Delivery is non-blocking and best-effort: an unready handle is
silently skipped for that publish, a ready handle receives the value exactly
when the traversal attempts it, and the readiness of one handle has no effect
on what any other handle receives. -/
theorem publish_best_effort (ready : Nat → Bool) (r : Router) (P : List String) (ch : Nat) :
    (ready ch = false → ch ∉ r.publish ready P) ∧
    (ready ch = true → (ch ∈ r.publish ready P ↔ ch ∈ r.offers P)) ∧
    (∀ ready2 : Nat → Bool, (∀ c, c ≠ ch → ready2 c = ready c) →
      ∀ c, c ≠ ch → (c ∈ r.publish ready2 P ↔ c ∈ r.publish ready P)) := by
  refine ⟨?_, ?_, ?_⟩
  · intro h hm
    rw [publish_eq_filter_offers] at hm
    have := (List.mem_filter.mp hm).2
    rw [h] at this
    exact Bool.false_ne_true this
  · intro h
    rw [publish_eq_filter_offers]
    exact ⟨fun hm => (List.mem_filter.mp hm).1, fun hm => List.mem_filter.mpr ⟨hm, h⟩⟩
  · intro ready2 hagree c hc
    rw [publish_eq_filter_offers, publish_eq_filter_offers]
    simp [List.mem_filter, hagree c hc]

/-! ### Unsubscribe -/

theorem unsubscribe_missing_noop (r : Router) (ch : Nat) (P : List String) :
    ch ∉ r.subsAt P → r.unsubscribe ch P = r := by
  induction P generalizing r with
  | nil =>
    cases r with
    | node s c =>
      intro h
      simp only [subsAt_nil, subs_node] at h
      have hs : s.filter (fun x => x ≠ ch) = s := by
        apply List.filter_eq_self.mpr
        intro a ha
        simp only [ne_eq, decide_not, Bool.not_eq_true', decide_eq_false_iff_not]
        rintro rfl
        exact h ha
      simp [Router.unsubscribe, hs]
      intro a ha
      rintro rfl
      exact h ha
  | cons t rest ih =>
    cases r with
    | node s c =>
      intro h
      cases hf : findChild c t with
      | none => simp [Router.unsubscribe, hf]
      | some r2 =>
        have h2 : ch ∉ r2.subsAt rest := by
          rw [subsAt_cons_some _ _ _ _ _ hf] at h
          exact h
        simp [Router.unsubscribe, hf, ih r2 h2, updateChild_findChild_self _ _ _ hf]

theorem not_mem_subsAt_unsubscribe (r : Router) (ch : Nat) (P : List String) :
    ch ∉ (r.unsubscribe ch P).subsAt P := by
  induction P generalizing r with
  | nil =>
    cases r with
    | node s c => simp [Router.unsubscribe, List.mem_filter]
  | cons t rest ih =>
    cases r with
    | node s c =>
      cases hf : findChild c t with
      | none => simp [Router.unsubscribe, hf, subsAt_cons_none _ _ _ _ hf]
      | some r2 =>
        have hfc : findChild (updateChild c t (r2.unsubscribe ch rest)) t
            = some (r2.unsubscribe ch rest) := findChild_updateChild_self _ _ _
        simp [Router.unsubscribe, hf, subsAt_cons_some _ _ _ _ _ hfc, ih]

/-- **C5.** `unsubscribe` is total and idempotent: when the handle is not
registered at the topic — in particular when some segment of the topic has no
node, so the subscriber set there is empty — the router is left exactly as it
was, and unsubscribing twice is the same as unsubscribing once. -/
theorem unsubscribe_total_idempotent (r : Router) (ch : Nat) (P : List String) :
    (ch ∉ r.subsAt P → r.unsubscribe ch P = r) ∧
    (r.unsubscribe ch P).unsubscribe ch P = r.unsubscribe ch P := by
  exact ⟨unsubscribe_missing_noop r ch P,
    unsubscribe_missing_noop _ ch P (not_mem_subsAt_unsubscribe r ch P)⟩

/-! ### Node persistence -/

theorem nodeAt_isSome_subscribe (r : Router) (ch : Nat) (P Q : List String) :
    (r.nodeAt Q).isSome = true → (((r.subscribe ch P).1).nodeAt Q).isSome = true := by
  induction P generalizing r Q with
  | nil =>
    cases r with
    | node s c =>
      intro h
      by_cases hm : ch ∈ s
      · simpa [Router.subscribe, hm] using h
      · cases Q with
        | nil => simp [Router.subscribe, hm, Router.nodeAt]
        | cons u qrest =>
          cases hf : findChild c u with
          | none => simp [Router.nodeAt, hf] at h
          | some cu => simpa [Router.subscribe, hm, Router.nodeAt, hf] using h
  | cons t rest ih =>
    cases r with
    | node s c =>
      intro h
      cases Q with
      | nil => simp [Router.subscribe, Router.nodeAt]
      | cons u qrest =>
        cases hf : findChild c u with
        | none => simp [Router.nodeAt, hf] at h
        | some cu =>
          have h2 : (cu.nodeAt qrest).isSome = true := by
            simpa [Router.nodeAt, hf] using h
          by_cases hut : u = t
          · subst hut
            simp [Router.subscribe, hf, Router.nodeAt, findChild_updateChild_self]
            exact ih cu qrest h2
          · simp [Router.subscribe, Router.nodeAt, findChild_updateChild_ne, hut, hf]
            exact h2

theorem nodeAt_isSome_unsubscribe (r : Router) (ch : Nat) (P Q : List String) :
    (r.nodeAt Q).isSome = true → ((r.unsubscribe ch P).nodeAt Q).isSome = true := by
  induction P generalizing r Q with
  | nil =>
    cases r with
    | node s c =>
      intro h
      cases Q with
      | nil => simp [Router.unsubscribe, Router.nodeAt]
      | cons u qrest =>
        cases hf : findChild c u with
        | none => simp [Router.nodeAt, hf] at h
        | some cu => simpa [Router.unsubscribe, Router.nodeAt, hf] using h
  | cons t rest ih =>
    cases r with
    | node s c =>
      intro h
      cases hft : findChild c t with
      | none => simpa [Router.unsubscribe, hft] using h
      | some r2 =>
        cases Q with
        | nil => simp [Router.unsubscribe, hft, Router.nodeAt]
        | cons u qrest =>
          cases hf : findChild c u with
          | none => simp [Router.nodeAt, hf] at h
          | some cu =>
            have h2 : (cu.nodeAt qrest).isSome = true := by
              simpa [Router.nodeAt, hf] using h
            by_cases hut : u = t
            · subst hut
              have hcu : cu = r2 := by
                rw [hf] at hft
                exact Option.some.inj hft
              subst hcu
              simp [Router.unsubscribe, hft, Router.nodeAt, findChild_updateChild_self]
              exact ih cu qrest h2
            · simp [Router.unsubscribe, hft, Router.nodeAt,
                findChild_updateChild_ne, hut, hf]
              exact h2

/-- **C6.** Router nodes are never destroyed: a node reachable before a
subscribe, an unsubscribe or a publish is still reachable afterwards (its
subscriber set may have changed, its existence has not). -/
theorem nodes_never_destroyed {α : Type} (ready : Nat → Bool) (r : Router) (ch : Nat)
    (v : α) (P Q : List String) :
    (r.nodeAt Q).isSome = true →
      (((r.subscribe ch P).1).nodeAt Q).isSome = true ∧
      ((r.unsubscribe ch P).nodeAt Q).isSome = true ∧
      (((step ready r (Cmd.pub v P)).1).nodeAt Q).isSome = true := by
  intro h
  exact ⟨nodeAt_isSome_subscribe r ch P Q h, nodeAt_isSome_unsubscribe r ch P Q h, h⟩

/-! ### The actor loop as a pure step function -/

/-- **C9.** Publishing never mutates the router: the publish arm of the actor
loop returns the state it was given, so erasing every publish command from a
command sequence leaves the final router state unchanged. -/
theorem publish_never_mutates {α : Type} (ready : Nat → Bool) (r : Router) (v : α)
    (P : List String) (cmds : List (Cmd α)) :
    (step ready r (Cmd.pub v P)).1 = r ∧
    (run ready r cmds).1 = (run ready r (cmds.filter Cmd.isMut)).1 := by
  refine ⟨rfl, ?_⟩
  induction cmds generalizing r with
  | nil => rfl
  | cons c rest ih =>
    cases c with
    | pub v2 P2 => simpa [run, step, Cmd.isMut] using ih r
    | sub ch P2 =>
      simp only [run, step, List.filter, Cmd.isMut]
      exact ih _
    | unsub ch P2 =>
      simp only [run, step, List.filter, Cmd.isMut]
      exact ih _

/-- **C7.** An unsubscribe command only removes the registration — it emits
no event at all, in particular no close notification; indeed no command
(publish, subscribe or unsubscribe) processed by the actor loop ever emits a
close notification, which therefore only happens at shutdown. -/
theorem unsubscribe_never_closes {α : Type} (ready : Nat → Bool) (r : Router) (ch : Nat)
    (P : List String) (cmds : List (Cmd α)) :
    step ready r (Cmd.unsub ch P) = (r.unsubscribe ch P, ([] : List (Event α))) ∧
    ∀ c, Event.closed c ∉ (run ready r cmds).2 := by
  refine ⟨rfl, ?_⟩
  intro c
  induction cmds generalizing r with
  | nil => simp [run]
  | cons cmd rest ih =>
    cases cmd with
    | pub v P2 =>
      simp [run, step]
      exact ih _
    | sub ch2 P2 => simpa [run, step] using ih _
    | unsub ch2 P2 => simpa [run, step] using ih _

/-! ### Well-formedness facts -/

theorem wfChildren_findChild (l : List (String × Router)) (t : String) (c : Router)
    (hw : wfChildren l = true) (hf : findChild l t = some c) : c.wfB = true := by
  induction l with
  | nil => simp [findChild] at hf
  | cons kc rest ih =>
    obtain ⟨k, c0⟩ := kc
    simp only [wfChildren, Bool.and_eq_true] at hw
    by_cases hk : k = t
    · subst hk
      simp [findChild] at hf
      rw [← hf]
      exact hw.1
    · simp [findChild, hk] at hf
      exact ih hw.2 hf

theorem wfB_subsAt_nodup (r : Router) (Q : List String) (hw : r.wfB = true) :
    (r.subsAt Q).Nodup := by
  induction Q generalizing r with
  | nil =>
    cases r with
    | node s c =>
      simp only [Router.wfB, Bool.and_eq_true, decide_eq_true_eq] at hw
      simpa using hw.1.1
  | cons t rest ih =>
    cases r with
    | node s c =>
      cases hf : findChild c t with
      | none => simp [subsAt_cons_none _ _ _ _ hf]
      | some r2 =>
        rw [subsAt_cons_some _ _ _ _ _ hf]
        apply ih
        simp only [Router.wfB, Bool.and_eq_true, decide_eq_true_eq] at hw
        exact wfChildren_findChild c t r2 hw.2 hf

/-! ### Delivery multiplicity -/

theorem count_collectSubs (r : Router) (L : List (List String)) (ch : Nat)
    (hw : ∀ Q, (r.subsAt Q).Nodup) :
    (collectSubs r L).count ch = L.countP (fun Q => decide (ch ∈ r.subsAt Q)) := by
  induction L with
  | nil => simp [collectSubs]
  | cons Q L ih =>
    simp only [collectSubs, List.count_append, List.countP_cons, ih]
    rw [List.count_eq_of_nodup (hw Q)]
    by_cases hm : ch ∈ r.subsAt Q
    · simp [hm]
      omega
    · simp [hm]

/-! ### Shutdown: close-notification bookkeeping -/

theorem closeSubs_closed_mem (subs : List Nat) : ∀ (closed : List Nat) (x : Nat),
    x ∈ (closeSubs subs closed).1 ↔ x ∈ closed ∨ x ∈ subs := by
  induction subs with
  | nil => intro closed x; simp [closeSubs]
  | cons ch rest ih =>
    intro closed x
    by_cases h : ch ∈ closed
    · have e : closeSubs (ch :: rest) closed = closeSubs rest closed := by
        simp [closeSubs, h]
      rw [e, ih closed x]
      simp only [List.mem_cons]
      constructor
      · tauto
      · rintro (hx | rfl | hx)
        · exact Or.inl hx
        · exact Or.inl h
        · exact Or.inr hx
    · have e : (closeSubs (ch :: rest) closed).1 = (closeSubs rest (ch :: closed)).1 := by
        simp [closeSubs, h]
      rw [e, ih (ch :: closed) x]
      simp only [List.mem_cons]
      tauto

theorem closeSubs_notes_mem (subs : List Nat) : ∀ (closed : List Nat) (x : Nat),
    x ∈ (closeSubs subs closed).2 ↔ x ∈ subs ∧ x ∉ closed := by
  induction subs with
  | nil => intro closed x; simp [closeSubs]
  | cons ch rest ih =>
    intro closed x
    by_cases h : ch ∈ closed
    · have e : (closeSubs (ch :: rest) closed).2 = (closeSubs rest closed).2 := by
        simp [closeSubs, h]
      rw [e, ih closed x]
      simp only [List.mem_cons]
      constructor
      · tauto
      · rintro ⟨rfl | hx, hcl⟩
        · exact absurd h hcl
        · exact ⟨hx, hcl⟩
    · have e : (closeSubs (ch :: rest) closed).2 = ch :: (closeSubs rest (ch :: closed)).2 := by
        simp [closeSubs, h]
      rw [e]
      simp only [List.mem_cons, ih (ch :: closed) x]
      constructor
      · rintro (rfl | ⟨hx, hncl⟩)
        · exact ⟨Or.inl rfl, h⟩
        · exact ⟨Or.inr hx, fun hc => hncl (Or.inr hc)⟩
      · rintro ⟨rfl | hx, hncl⟩
        · exact Or.inl rfl
        · by_cases hxch : x = ch
          · exact Or.inl hxch
          · refine Or.inr ⟨hx, fun hc => ?_⟩
            rcases hc with e2 | hc2
            · exact hxch e2
            · exact hncl hc2

theorem closeSubs_notes_nodup (subs : List Nat) : ∀ closed : List Nat,
    (closeSubs subs closed).2.Nodup := by
  induction subs with
  | nil => intro closed; simp [closeSubs]
  | cons ch rest ih =>
    intro closed
    by_cases h : ch ∈ closed
    · have e : (closeSubs (ch :: rest) closed).2 = (closeSubs rest closed).2 := by
        simp [closeSubs, h]
      rw [e]
      exact ih closed
    · have e : (closeSubs (ch :: rest) closed).2 = ch :: (closeSubs rest (ch :: closed)).2 := by
        simp [closeSubs, h]
      rw [e]
      refine List.nodup_cons.mpr ⟨?_, ih _⟩
      intro hm
      have := (closeSubs_notes_mem rest (ch :: closed) ch).mp hm
      exact this.2 (List.mem_cons_self _ _)

theorem closeAll_spec_aux : ∀ n : Nat,
    (∀ r : Router, sizeOf r < n → ∀ closed : List Nat,
      (∀ x, x ∈ (r.closeAll closed).1 ↔ x ∈ closed ∨ x ∈ r.handles) ∧
      (∀ x, x ∈ (r.closeAll closed).2 ↔ x ∈ r.handles ∧ x ∉ closed) ∧
      (r.closeAll closed).2.Nodup) ∧
    (∀ l : List (String × Router), sizeOf l < n → ∀ closed : List Nat,
      (∀ x, x ∈ (closeChildren l closed).1 ↔ x ∈ closed ∨ x ∈ handlesChildren l) ∧
      (∀ x, x ∈ (closeChildren l closed).2 ↔ x ∈ handlesChildren l ∧ x ∉ closed) ∧
      (closeChildren l closed).2.Nodup) := by
  intro n
  induction n with
  | zero =>
    exact ⟨fun r h => absurd h (Nat.not_lt_zero _),
      fun l h => absurd h (Nat.not_lt_zero _)⟩
  | succ n ih =>
    refine ⟨?_, ?_⟩
    · intro r hr closed
      cases r with
      | node subs children =>
        have hsz : sizeOf children < n := by
          have h1 := Router.node.sizeOf_spec subs children
          omega
        obtain ⟨hc1, hc2, hc3⟩ := ih.2 children hsz (closeSubs subs closed).1
        have e : Router.closeAll (Router.node subs children) closed =
            ((closeChildren children (closeSubs subs closed).1).1,
              (closeSubs subs closed).2 ++
                (closeChildren children (closeSubs subs closed).1).2) := by
          simp [Router.closeAll]
        rw [e]
        refine ⟨?_, ?_, ?_⟩
        · intro x
          dsimp only
          rw [hc1 x, closeSubs_closed_mem subs closed x]
          simp only [Router.handles, List.mem_append]
          tauto
        · intro x
          dsimp only
          simp only [List.mem_append]
          rw [hc2 x, closeSubs_notes_mem subs closed x, closeSubs_closed_mem subs closed x]
          simp only [Router.handles, List.mem_append]
          tauto
        · dsimp only
          refine List.Nodup.append (closeSubs_notes_nodup subs closed) hc3 ?_
          intro x hx1 hx2
          have h1 := (closeSubs_notes_mem subs closed x).mp hx1
          have h2 := (hc2 x).mp hx2
          exact h2.2 ((closeSubs_closed_mem subs closed x).mpr (Or.inr h1.1))
    · intro l hl closed
      cases l with
      | nil =>
        refine ⟨?_, ?_, ?_⟩ <;> simp [closeChildren, handlesChildren]
      | cons kc rest =>
        obtain ⟨k, c⟩ := kc
        have hszc : sizeOf c < n := by
          have h1 := List.cons.sizeOf_spec (k, c) rest
          have h2 := Prod.mk.sizeOf_spec k c
          omega
        have hszr : sizeOf rest < n := by
          have h1 := List.cons.sizeOf_spec (k, c) rest
          omega
        obtain ⟨ha1, ha2, ha3⟩ := ih.1 c hszc closed
        obtain ⟨hb1, hb2, hb3⟩ := ih.2 rest hszr (c.closeAll closed).1
        have e : closeChildren ((k, c) :: rest) closed =
            ((closeChildren rest (c.closeAll closed).1).1,
              (c.closeAll closed).2 ++ (closeChildren rest (c.closeAll closed).1).2) := by
          simp [closeChildren]
        rw [e]
        refine ⟨?_, ?_, ?_⟩
        · intro x
          dsimp only
          rw [hb1 x, ha1 x]
          simp only [handlesChildren, List.mem_append]
          tauto
        · intro x
          dsimp only
          simp only [List.mem_append]
          rw [hb2 x, ha2 x, ha1 x]
          simp only [handlesChildren, List.mem_append]
          tauto
        · dsimp only
          refine List.Nodup.append ha3 hb3 ?_
          intro x hx1 hx2
          have h1 := (ha2 x).mp hx1
          have h2 := (hb2 x).mp hx2
          exact h2.2 ((ha1 x).mpr (Or.inr h1.1))

/-! ### Handles versus per-topic registration -/

theorem findChild_mem (l : List (String × Router)) (t : String) (c : Router)
    (hf : findChild l t = some c) : (t, c) ∈ l := by
  induction l with
  | nil => simp [findChild] at hf
  | cons kc rest ih =>
    obtain ⟨k, c0⟩ := kc
    by_cases hk : k = t
    · subst hk
      simp [findChild] at hf
      rw [← hf]
      exact List.mem_cons_self _ _
    · simp [findChild, hk] at hf
      exact List.mem_cons_of_mem _ (ih hf)

theorem findChild_mem_keys (l : List (String × Router)) (t : String) (c : Router)
    (hf : findChild l t = some c) : t ∈ l.map Prod.fst := by
  have := findChild_mem l t c hf
  exact List.mem_map.mpr ⟨(t, c), this, rfl⟩

theorem handlesChildren_of_findChild (l : List (String × Router)) (t : String) (c : Router)
    (hf : findChild l t = some c) : ∀ x, x ∈ c.handles → x ∈ handlesChildren l := by
  induction l with
  | nil => simp [findChild] at hf
  | cons kc rest ih =>
    obtain ⟨k, c0⟩ := kc
    by_cases hk : k = t
    · subst hk
      simp [findChild] at hf
      intro x hx
      simp only [handlesChildren, List.mem_append]
      exact Or.inl (hf ▸ hx)
    · simp [findChild, hk] at hf
      intro x hx
      simp only [handlesChildren, List.mem_append]
      exact Or.inr (ih hf x hx)

theorem mem_handles_of_subsAt (r : Router) (Q : List String) (ch : Nat)
    (h : ch ∈ r.subsAt Q) : ch ∈ r.handles := by
  induction Q generalizing r with
  | nil =>
    cases r with
    | node s c =>
      simp only [Router.handles, List.mem_append]
      exact Or.inl (by simpa using h)
  | cons t rest ih =>
    cases r with
    | node s c =>
      cases hf : findChild c t with
      | none =>
        rw [subsAt_cons_none _ _ _ _ hf] at h
        simp at h
      | some r2 =>
        rw [subsAt_cons_some _ _ _ _ _ hf] at h
        simp only [Router.handles, List.mem_append]
        exact Or.inr (handlesChildren_of_findChild c t r2 hf ch (ih r2 h))

theorem handlesChildren_split (l : List (String × Router)) :
    (l.map Prod.fst).Nodup → ∀ x, x ∈ handlesChildren l →
      ∃ t c, findChild l t = some c ∧ x ∈ c.handles := by
  induction l with
  | nil => intro _ x hx; simp [handlesChildren] at hx
  | cons kc rest ih =>
    obtain ⟨k, c0⟩ := kc
    intro hk x hx
    simp only [List.map_cons, List.nodup_cons] at hk
    simp only [handlesChildren, List.mem_append] at hx
    rcases hx with hx | hx
    · exact ⟨k, c0, by simp [findChild], hx⟩
    · obtain ⟨t, c, hf, hxc⟩ := ih hk.2 x hx
      have hkt : ¬k = t := by
        intro e
        exact hk.1 (e ▸ findChild_mem_keys rest t c hf)
      exact ⟨t, c, by simp [findChild, hkt, hf], hxc⟩

theorem mem_handles_exists_subsAt : ∀ n : Nat, ∀ r : Router, sizeOf r < n →
    r.wfB = true → ∀ x, x ∈ r.handles → ∃ Q, x ∈ r.subsAt Q := by
  intro n
  induction n with
  | zero => intro r h; exact absurd h (Nat.not_lt_zero _)
  | succ n ih =>
    intro r hr hw x hx
    cases r with
    | node subs children =>
      simp only [Router.handles, List.mem_append] at hx
      simp only [Router.wfB, Bool.and_eq_true, decide_eq_true_eq] at hw
      rcases hx with hx | hx
      · exact ⟨[], by simpa using hx⟩
      · obtain ⟨t, c, hf, hxc⟩ := handlesChildren_split children hw.1.2 x hx
        have hszc : sizeOf c < n := by
          have h1 := Router.node.sizeOf_spec subs children
          have h2 := List.sizeOf_lt_of_mem (findChild_mem children t c hf)
          have h3 := Prod.mk.sizeOf_spec t c
          omega
        obtain ⟨Q, hQ⟩ := ih c hszc (wfChildren_findChild children t c hw.2 hf) x hxc
        exact ⟨t :: Q, by rw [subsAt_cons_some _ _ _ _ _ hf]; exact hQ⟩

/-- **C3.** Shutdown closes each registered handle exactly once: the list of
close notifications issued by `router.close` has no duplicates, and a handle
appears in it exactly when it is registered at some topic — however many
topics it is registered at. -/
theorem shutdown_closes_each_handle_once (r : Router) (hw : r.wfB = true) :
    (r.closeAll []).2.Nodup ∧
    ∀ ch, (ch ∈ (r.closeAll []).2 ↔ ∃ Q, ch ∈ r.subsAt Q) := by
  obtain ⟨_, h2, h3⟩ := (closeAll_spec_aux (sizeOf r + 1)).1 r (Nat.lt_succ_self _) []
  refine ⟨h3, fun ch => ?_⟩
  rw [h2 ch]
  simp only [List.not_mem_nil, not_false_eq_true, and_true]
  constructor
  · exact fun hm => mem_handles_exists_subsAt (sizeOf r + 1) r (Nat.lt_succ_self _) hw ch hm
  · rintro ⟨Q, hQ⟩
    exact mem_handles_of_subsAt r Q ch hQ

/-- **C10.** Deliveries are not deduplicated per handle: one publish at topic
`P` attempts delivery to a handle once for every prefix of `P` at which the
handle is registered, so a handle registered at `k` matching prefixes gets
`k` attempts. -/
theorem deliveries_not_deduplicated (r : Router) (P : List String) (ch : Nat)
    (hw : r.wfB = true) :
    (r.offers P).count ch = P.inits.countP (fun Q => decide (ch ∈ r.subsAt Q)) := by
  rw [offers_eq_collectSubs]
  exact count_collectSubs r P.inits ch (fun Q => wfB_subsAt_nodup r Q hw)

/-! ### The well-formedness invariant is maintained

Justifies the `wfB` hypotheses above: the router starts well-formed and every
subscribe and unsubscribe keeps it so (publish does not touch it). -/

theorem findChild_none_iff (l : List (String × Router)) (t : String) :
    findChild l t = none ↔ t ∉ l.map Prod.fst := by
  induction l with
  | nil => simp [findChild]
  | cons kc rest ih =>
    obtain ⟨k, c⟩ := kc
    by_cases hk : k = t
    · subst hk
      simp [findChild]
    · have hk2 : ¬t = k := fun e => hk e.symm
      simp [findChild, hk, ih, hk2]

theorem keys_updateChild (l : List (String × Router)) (t : String) (v : Router) :
    (updateChild l t v).map Prod.fst =
      if (findChild l t).isSome then l.map Prod.fst else l.map Prod.fst ++ [t] := by
  induction l with
  | nil => simp [updateChild, findChild]
  | cons kc rest ih =>
    obtain ⟨k, c⟩ := kc
    by_cases hk : k = t
    · subst hk
      simp [updateChild, findChild]
    · cases hf : findChild rest t with
      | none => simp [updateChild, findChild, hk, ih, hf]
      | some c2 => simp [updateChild, findChild, hk, ih, hf]

theorem wfChildren_updateChild (l : List (String × Router)) (t : String) (v : Router)
    (hl : wfChildren l = true) (hv : v.wfB = true) :
    wfChildren (updateChild l t v) = true := by
  induction l with
  | nil => simp [updateChild, wfChildren, hv]
  | cons kc rest ih =>
    obtain ⟨k, c⟩ := kc
    simp only [wfChildren, Bool.and_eq_true] at hl
    by_cases hk : k = t
    · subst hk
      simp [updateChild, wfChildren, hv, hl.2]
    · simp [updateChild, wfChildren, hk, hl.1, ih hl.2]

theorem wfB_empty : Router.empty.wfB = true := by decide

theorem wfB_subscribe (r : Router) (ch : Nat) (P : List String) :
    r.wfB = true → ((r.subscribe ch P).1).wfB = true := by
  induction P generalizing r with
  | nil =>
    cases r with
    | node s c =>
      intro hw
      by_cases hm : ch ∈ s
      · simpa [Router.subscribe, hm] using hw
      · simp only [Router.wfB, Bool.and_eq_true, decide_eq_true_eq] at hw
        have e : (Router.node s c).subscribe ch [] = (.node (ch :: s) c, false) := by
          simp [Router.subscribe, hm]
        rw [e]
        simp only [Router.wfB, Bool.and_eq_true, decide_eq_true_eq]
        exact ⟨⟨List.nodup_cons.mpr ⟨hm, hw.1.1⟩, hw.1.2⟩, hw.2⟩
  | cons t rest ih =>
    cases r with
    | node s c =>
      intro hw
      simp only [Router.wfB, Bool.and_eq_true, decide_eq_true_eq] at hw
      obtain ⟨⟨h1, h2⟩, h3⟩ := hw
      cases hf : findChild c t with
      | none =>
        have e : ((Router.node s c).subscribe ch (t :: rest)).1 =
            .node s (updateChild c t ((Router.empty.subscribe ch rest).1)) := by
          simp [Router.subscribe, hf]
        rw [e]
        simp only [Router.wfB, Bool.and_eq_true, decide_eq_true_eq, subs_node,
          children_node]
        refine ⟨⟨h1, ?_⟩, ?_⟩
        · rw [keys_updateChild, hf]
          simp only [Option.isSome_none, Bool.false_eq_true, if_false]
          rw [List.nodup_append]
          refine ⟨h2, List.nodup_singleton t, ?_⟩
          intro a ha hb
          simp only [List.mem_singleton] at hb
          subst hb
          exact (findChild_none_iff c a).mp hf ha
        · exact wfChildren_updateChild c t _ h3 (ih Router.empty wfB_empty)
      | some r2 =>
        have e : ((Router.node s c).subscribe ch (t :: rest)).1 =
            .node s (updateChild c t ((r2.subscribe ch rest).1)) := by
          simp [Router.subscribe, hf]
        rw [e]
        simp only [Router.wfB, Bool.and_eq_true, decide_eq_true_eq, subs_node,
          children_node]
        refine ⟨⟨h1, ?_⟩, ?_⟩
        · rw [keys_updateChild, hf]
          simp [h2]
        · exact wfChildren_updateChild c t _ h3
            (ih r2 (wfChildren_findChild c t r2 h3 hf))

theorem wfB_unsubscribe (r : Router) (ch : Nat) (P : List String) :
    r.wfB = true → (r.unsubscribe ch P).wfB = true := by
  induction P generalizing r with
  | nil =>
    cases r with
    | node s c =>
      intro hw
      simp only [Router.wfB, Bool.and_eq_true, decide_eq_true_eq] at hw
      have e : (Router.node s c).unsubscribe ch [] =
          .node (s.filter (fun x => x ≠ ch)) c := by
        simp [Router.unsubscribe]
      rw [e]
      simp only [Router.wfB, Bool.and_eq_true, decide_eq_true_eq]
      exact ⟨⟨hw.1.1.filter _, hw.1.2⟩, hw.2⟩
  | cons t rest ih =>
    cases r with
    | node s c =>
      intro hw
      simp only [Router.wfB, Bool.and_eq_true, decide_eq_true_eq] at hw
      cases hf : findChild c t with
      | none =>
        have e : (Router.node s c).unsubscribe ch (t :: rest) = Router.node s c := by
          simp [Router.unsubscribe, hf]
        rw [e]
        simp only [Router.wfB, Bool.and_eq_true, decide_eq_true_eq]
        exact hw
      | some r2 =>
        have e : (Router.node s c).unsubscribe ch (t :: rest) =
            .node s (updateChild c t (r2.unsubscribe ch rest)) := by
          simp [Router.unsubscribe, hf]
        rw [e]
        simp only [Router.wfB, Bool.and_eq_true, decide_eq_true_eq, subs_node,
          children_node]
        refine ⟨⟨hw.1.1, ?_⟩, ?_⟩
        · rw [keys_updateChild, hf]
          simp [hw.1.2]
        · exact wfChildren_updateChild c t _ hw.2
            (ih r2 (wfChildren_findChild c t r2 hw.2 hf))

/-! ### Concrete instantiations of the conditional theorems -/

/-- Witness for `shutdown_closes_each_handle_once`: `sampleB` registers
handle 7 at three different topics and is well-formed. -/
theorem shutdown_closes_each_handle_once_witness :
    (sampleB.closeAll []).2.Nodup ∧
    ∀ ch, (ch ∈ (sampleB.closeAll []).2 ↔ ∃ Q, ch ∈ sampleB.subsAt Q) :=
  shutdown_closes_each_handle_once sampleB (by decide)

/-- Witness for `publish_best_effort`: with handle 2 unready, 2 is skipped,
1 still receives, and 2's readiness does not change what 1 receives. -/
theorem publish_best_effort_witness :
    (2 ∉ sampleA.publish (fun c => c != 2) ["a"]) ∧
    (1 ∈ sampleA.publish (fun c => c != 2) ["a"] ↔ 1 ∈ sampleA.offers ["a"]) ∧
    (1 ∈ sampleA.publish (fun _ => true) ["a"] ↔
      1 ∈ sampleA.publish (fun c => c != 2) ["a"]) :=
  ⟨(publish_best_effort (fun c => c != 2) sampleA ["a"] 2).1 (by decide),
   (publish_best_effort (fun c => c != 2) sampleA ["a"] 1).2.1 (by decide),
   (publish_best_effort (fun c => c != 2) sampleA ["a"] 2).2.2 (fun _ => true)
     (fun c hc => by simp [hc]) 1 (by decide)⟩

/-- Witness for `unsubscribe_total_idempotent`: handle 5 is not registered at
`["a"]` in `sampleA`, and removing handle 1 there twice equals doing it
once. -/
theorem unsubscribe_total_idempotent_witness :
    (sampleA.unsubscribe 5 ["a"] = sampleA) ∧
    ((sampleA.unsubscribe 1 ["a"]).unsubscribe 1 ["a"] =
      sampleA.unsubscribe 1 ["a"]) :=
  ⟨(unsubscribe_total_idempotent sampleA 5 ["a"]).1 (by decide),
   (unsubscribe_total_idempotent sampleA 1 ["a"]).2⟩

/-- Witness for `nodes_never_destroyed`: the node at `["a","b"]` of `sampleA`
survives a subscribe, an unsubscribe and a publish at `["c"]`. -/
theorem nodes_never_destroyed_witness :
    (((sampleA.subscribe 7 ["c"]).1).nodeAt ["a", "b"]).isSome = true ∧
    ((sampleA.unsubscribe 7 ["c"]).nodeAt ["a", "b"]).isSome = true ∧
    (((step (fun _ => true) sampleA (Cmd.pub (0 : Nat) ["c"])).1).nodeAt
      ["a", "b"]).isSome = true :=
  nodes_never_destroyed (fun _ => true) sampleA 7 (0 : Nat) ["c"] ["a", "b"] (by decide)

/-- Witness for `subscribe_error_leaves_state`: re-subscribing handle 1 at
`["a"]` in `sampleA` is a duplicate and leaves `sampleA` unchanged. -/
theorem subscribe_error_leaves_state_witness :
    (sampleA.subscribe 1 ["a"]).1 = sampleA :=
  subscribe_error_leaves_state sampleA 1 ["a"] (by decide)

/-- Witness for `deliveries_not_deduplicated`: handle 7 of `sampleB` sits at
two prefixes of `["a","x"]` (the root and `["a"]`) and is offered the value
twice. -/
theorem deliveries_not_deduplicated_witness :
    (sampleB.offers ["a", "x"]).count 7 =
      (["a", "x"] : List String).inits.countP (fun Q => decide (7 ∈ sampleB.subsAt Q)) :=
  deliveries_not_deduplicated sampleB ["a", "x"] 7 (by decide)

end PubSub
